import Mathlib

/-!
Verification of the iterative PR code-review engine (`src/review.py`).

The development shallowly embeds the pure decision core of the program:
the unified-diff parser `parse_diff_with_line_numbers`, the anchor map
`get_valid_diff_lines`, the reply parser `parse_context_requests` (with its
line-oriented fallback), the quality filter `validate_comment_quality`, the
comment classifier of `post_review_comments`, and the bounded context loop of
`review_pr`.  External collaborators (subprocess `git`/`grep` searches, the
OpenAI chat endpoint, the GitHub REST API) are modelled as oracles or
parameters; everything the theorems mention is translated from the source.
-/

set_option maxRecDepth 4096

/-- Contiguous-sublist test on character lists. -/
def listInfix (pat : List Char) : List Char → Bool
  | [] => pat.isEmpty
  | c :: cs => pat.isPrefixOf (c :: cs) || listInfix pat cs

/-- Substring test: models the Python expression `x in y` on strings. -/
def pyIn (x y : String) : Bool :=
  listInfix x.toList y.toList

/-- Characters removed by the Python `str.strip()` with no arguments
(ASCII whitespace; exotic Unicode spaces are out of scope). -/
def isPySpace (c : Char) : Bool :=
  c = ' ' || c = '\t' || c = '\n' || c = '\r' || c = '\x0b' || c = '\x0c'

/-- Models the Python `str.strip()` with no arguments. -/
def pyStrip (s : String) : String :=
  String.mk (((s.toList.dropWhile isPySpace).reverse.dropWhile isPySpace).reverse)

/-- Models the Python `str.strip(ch)` for a single strip character. -/
def pyStripChar (c : Char) (s : String) : String :=
  String.mk (((s.toList.dropWhile (· = c)).reverse.dropWhile (· = c)).reverse)

/-- Models the Python `str.lower()`; exact on ASCII and on the Korean text
used by the program (Korean has no case). -/
def pyLower (s : String) : String :=
  String.mk (s.toList.map Char.toLower)

/-- Models the Python `str.startswith(pre)`. -/
def strStarts (s pre : String) : Bool :=
  pre.toList.isPrefixOf s.toList

/-- Split a character list at every occurrence of `c`. -/
def splitCharList (c : Char) : List Char → List (List Char)
  | [] => [[]]
  | x :: xs =>
    let r := splitCharList c xs
    if x = c then [] :: r
    else
      match r with
      | [] => [[x]]
      | y :: ys => (x :: y) :: ys

/-- Models the Python `s.split(sep)` for a one-character separator (the
program only splits on a newline). -/
def pySplitChar (c : Char) (s : String) : List String :=
  (splitCharList c s.toList).map String.mk

/-- Models the Python `s[1:]`. -/
def pyDrop1 (s : String) : String :=
  String.mk (s.toList.drop 1)

/-- Left-to-right non-overlapping replacement of a nonempty pattern; the
fuel exceeds the number of steps any input can take. -/
def replaceFuel (pat rep : List Char) : Nat → List Char → List Char
  | 0, l => l
  | _ + 1, [] => []
  | fuel + 1, c :: cs =>
    if pat.isPrefixOf (c :: cs) && !pat.isEmpty then
      rep ++ replaceFuel pat rep fuel (List.drop (pat.length - 1) cs)
    else c :: replaceFuel pat rep fuel cs

/-- Models the Python `s.replace(pat, rep)` for nonempty `pat` (the program
only replaces the nonempty markers `- pattern:` and `- reason:`). -/
def pyReplace (s pat rep : String) : String :=
  String.mk (replaceFuel pat.toList rep.toList s.toList.length s.toList)

/-- One parsed diff line: the dict
`\x7b"type": ..., "content": ..., "line_number": ...\x7d` built by
`parse_diff_with_line_numbers`.  `type` is one of "+", "-", " ". -/
structure DiffLine where
  type : String
  content : String
  line_number : Option Nat
deriving DecidableEq, Repr

/-- One parsed hunk: the dict with keys `old_start`, `new_start`, `lines`. -/
structure Hunk where
  old_start : Nat
  new_start : Nat
  lines : List DiffLine
deriving DecidableEq, Repr

/-- The Python test `l["type"] in ["+", " "]` used when counting the lines
that advance the new-file line counter. -/
def isAC (l : DiffLine) : Bool :=
  l.type == "+" || l.type == " "

/-- Maximal run of decimal digits at the head of the character list. -/
def takeDigits : List Char → List Char × List Char
  | [] => ([], [])
  | c :: cs =>
    if c.isDigit then
      let (d, r) := takeDigits cs
      (c :: d, r)
    else ([], c :: cs)

/-- Numeric value of a digit string, as Python `int` of a digit capture. -/
def digitsToNat (ds : List Char) : Nat :=
  ds.foldl (fun acc c => 10 * acc + (c.toNat - '0'.toNat)) 0

/-- Consume an optional `,` followed by a maximal digit run: the residue of
the regex fragment `,?\d*` under the deterministic analysis below. -/
def skipCommaDigits : List Char → List Char
  | ',' :: r => (takeDigits r).2
  | r => r

/-- Attempt to match the hunk-header regex
`@@ -(\d+),?\d* \+(\d+),?\d* @@` at the head of the character list.
Backtracking is vacuous for this pattern: after a maximal digit run the
next character is not a digit, and when it is a comma the fallback branch
of `,?` immediately demands a space where the comma stands, so the greedy
left-to-right reading coincides with the regex semantics. -/
def hunkHeaderAt (cs : List Char) : Option (Nat × Nat) :=
  match cs with
  | '@' :: '@' :: ' ' :: '-' :: rest =>
    let (d1, rest1) := takeDigits rest
    if d1.isEmpty then Option.none
    else
      match skipCommaDigits rest1 with
      | ' ' :: '+' :: rest2 =>
        let (d2, rest3) := takeDigits rest2
        if d2.isEmpty then Option.none
        else
          match skipCommaDigits rest3 with
          | ' ' :: '@' :: '@' :: _ => some (digitsToNat d1, digitsToNat d2)
          | _ => Option.none
      | _ => Option.none
  | _ => Option.none

/-- Leftmost search for the hunk-header pattern: models
`re.search(r"@@ -(\d+),?\d* \+(\d+),?\d* @@", line)` returning the two
captured numbers. -/
def searchHunkHeader : List Char → Option (Nat × Nat)
  | [] => Option.none
  | c :: cs =>
    match hunkHeaderAt (c :: cs) with
    | some r => some r
    | Option.none => searchHunkHeader cs

/-- Remainder after the first occurrence of `pat` as a contiguous sublist. -/
def dropAfterSub (pat : List Char) : List Char → Option (List Char)
  | [] => if pat.isEmpty then some [] else Option.none
  | c :: cs =>
    if pat.isPrefixOf (c :: cs) then some (List.drop pat.length (c :: cs))
    else dropAfterSub pat cs

/-- Split at the first occurrence of `sep`, returning the parts before and
after it. -/
def splitOnFirst (sep : List Char) : List Char → Option (List Char × List Char)
  | [] => Option.none
  | c :: cs =>
    if sep.isPrefixOf (c :: cs) then some ([], List.drop sep.length (c :: cs))
    else
      match splitOnFirst sep cs with
      | some (a, b) => some (c :: a, b)
      | Option.none => Option.none

/-- Models `re.search(r"diff --git a/(.*?) b/(.*?)$", line)` returning the
two captured groups.  The lazy group 1 stops at the first ` b/` after the
first `diff --git a/`; the lazy group 2 followed by `$` extends to the end
of the line (lines contain no newline).  A match exists at the first
occurrence of `diff --git a/` iff ` b/` occurs after it, since any later
witness for a later occurrence also serves the first. -/
def searchDiffGit (line : String) : Option (String × String) :=
  match dropAfterSub "diff --git a/".toList line.toList with
  | Option.none => Option.none
  | some rest =>
    match splitOnFirst " b/".toList rest with
    | Option.none => Option.none
    | some (g1, g2) => some (String.mk g1, String.mk g2)

/-- Mutable parser state of `parse_diff_with_line_numbers`.  Python hunk
dicts are shared by reference between `current_hunk` and the lists stored in
`file_changes`; the embedding makes the aliasing explicit through `store`, a
table of hunk objects addressed by index, with `file_changes` holding
indices and `current_hunk` the index of the hunk open for appending. -/
structure ParseState where
  store : List Hunk
  file_changes : List (String × List Nat)
  current_file : Option String
  current_hunk : Option Nat
deriving Repr

def initParseState : ParseState := ⟨[], [], Option.none, Option.none⟩

/-- Python dict assignment `m[k] = v`: replace in place, else append. -/
def setKey {α : Type} (m : List (String × α)) (k : String) (v : α) :
    List (String × α) :=
  match m with
  | [] => [(k, v)]
  | (k', v') :: rest =>
    if k' = k then (k, v) :: rest else (k', v') :: setKey rest k v

/-- Python `m[k].append(i)` on the `file_changes` dict (the key always
exists on reachable states, having been created with the current file). -/
def appendIdx (m : List (String × List Nat)) (k : String) (i : Nat) :
    List (String × List Nat) :=
  match m with
  | [] => [(k, [i])]
  | (k', v') :: rest =>
    if k' = k then (k, v' ++ [i]) :: rest else (k', v') :: appendIdx rest k i

/-- Python truthiness of `current_file` (`None` and the empty string are
falsy). -/
def truthyFile : Option String → Bool
  | some f => f ≠ ""
  | Option.none => false

def dfltHunk : Hunk := ⟨0, 0, []⟩

/-- The body-line branch of the parser loop: append a `+`, `-` or context
line to the hunk at store index `i`, exactly as the three `elif` arms do. -/
def bodyStep (st : ParseState) (i : Nat) (line : String) : ParseState :=
  let h := st.store.getD i dfltHunk
  if strStarts line "+" && !strStarts line "+++" then
    let n := h.new_start + h.lines.countP isAC
    { st with store :=
        st.store.set i { h with lines := h.lines ++ [⟨"+", pyDrop1 line, some n⟩] } }
  else if strStarts line "-" && !strStarts line "---" then
    { st with store :=
        st.store.set i { h with lines := h.lines ++ [⟨"-", pyDrop1 line, Option.none⟩] } }
  else if strStarts line " " then
    let n := h.new_start + h.lines.countP isAC
    { st with store :=
        st.store.set i { h with lines := h.lines ++ [⟨" ", pyDrop1 line, some n⟩] } }
  else st

/-- The `diff --git` branch of the parser loop: register the new file with
an empty hunk list and make it current (`current_hunk` is left alone, as in
the source). -/
def diffGitStep (st : ParseState) (g2 : String) : ParseState :=
  { st with current_file := some g2, file_changes := setKey st.file_changes g2 [] }

/-- The hunk-header branch of the parser loop: create a fresh hunk, append
it to the current file and open it for body lines. -/
def openHunk (st : ParseState) (o n : Nat) (f : String) : ParseState :=
  let idx := st.store.length
  { st with
      store := st.store ++ [⟨o, n, []⟩],
      file_changes := appendIdx st.file_changes f idx,
      current_hunk := some idx }

/-- One iteration of the `for line in diff.split("\n")` loop. -/
def parseStep (st : ParseState) (line : String) : ParseState :=
  if strStarts line "diff --git" then
    match searchDiffGit line with
    | some (_, g2) => diffGitStep st g2
    | Option.none => st
  else if strStarts line "@@" then
    match searchHunkHeader line.toList with
    | some (o, n) =>
      if truthyFile st.current_file then
        match st.current_file with
        | some f => openHunk st o n f
        | Option.none => st
      else st
    | Option.none => st
  else
    match st.current_hunk with
    | some i => if truthyFile st.current_file then bodyStep st i line else st
    | Option.none => st

/-- Models `parse_diff_with_line_numbers` of `src/review.py`: fold the line
loop over `diff.split("\n")`, then read the per-file hunk lists back out of
the store. -/
def parse_diff_with_line_numbers (diff : String) : List (String × List Hunk) :=
  let st := (pySplitChar '\n' diff).foldl parseStep initParseState
  st.file_changes.map (fun p => (p.1, p.2.map (fun i => st.store.getD i dfltHunk)))

/-- The inner accumulation of `get_valid_diff_lines`: add the line number of
an added line to the set. -/
def addValidLine (s : Finset Nat) (l : DiffLine) : Finset Nat :=
  match l.line_number with
  | some n => if l.type = "+" then insert n s else s
  | Option.none => s

/-- Models `get_valid_diff_lines` of `src/review.py`: per file, the set of
`line_number` values of lines with `type == "+"` and a non-`None` number. -/
def get_valid_diff_lines (diff : String) : List (String × Finset Nat) :=
  (parse_diff_with_line_numbers diff).map
    (fun p => (p.1, p.2.foldl (fun s h => h.lines.foldl addValidLine s) ∅))

/-- Python/JSON values as produced by `json.loads` (floats are not
modelled; a reply containing a float fails decoding in this model). -/
inductive PyVal where
  | none
  | bool (b : Bool)
  | int (n : Int)
  | str (s : String)
  | list (xs : List PyVal)
  | dict (entries : List (String × PyVal))
deriving Repr

/-- Python truthiness of a JSON value. -/
def truthy : PyVal → Bool
  | PyVal.none => false
  | PyVal.bool b => b
  | PyVal.int n => n != 0
  | PyVal.str s => s ≠ ""
  | PyVal.list xs => !xs.isEmpty
  | PyVal.dict es => !es.isEmpty

/-- Python `d.get(k, dflt)` on a dict with string keys. -/
def dictGet (entries : List (String × PyVal)) (k : String) (dflt : PyVal) : PyVal :=
  match List.lookup k entries with
  | some v => v
  | Option.none => dflt

/-- JSON whitespace skipping. -/
def skipWs : List Char → List Char :=
  List.dropWhile (fun c => c = ' ' || c = '\t' || c = '\n' || c = '\r')

/-- Value of one hexadecimal digit, by character-code ranges. -/
def hexVal (c : Char) : Option Nat :=
  let n := c.toNat
  if 48 ≤ n && n ≤ 57 then some (n - 48)
  else if 97 ≤ n && n ≤ 102 then some (n - 87)
  else if 65 ≤ n && n ≤ 70 then some (n - 55)
  else Option.none

/-- The two-character escapes of a JSON string, paired with their
values. -/
def jsonEscapePairs : List (Char × Char) :=
  [('"', '"'), ('\\', '\\'), ('/', '/'), ('b', '\x08'), ('f', '\x0c'),
   ('n', '\n'), ('r', '\r'), ('t', '\t')]

/-- JSON string body parser (after the opening quote), fuel-bounded. -/
def jparseStr : Nat → List Char → List Char → Option (String × List Char)
  | 0, _, _ => Option.none
  | fuel + 1, acc, cs =>
    match cs with
    | [] => Option.none
    | '"' :: rest => some (String.mk acc.reverse, rest)
    | '\\' :: e :: rest =>
      match List.lookup e jsonEscapePairs with
      | some c => jparseStr fuel (c :: acc) rest
      | Option.none =>
        if e = 'u' then
          match rest with
          | h1 :: h2 :: h3 :: h4 :: rest2 =>
            match [h1, h2, h3, h4].mapM hexVal with
            | some ds =>
              jparseStr fuel (Char.ofNat (ds.foldl (fun a d => 16 * a + d) 0) :: acc) rest2
            | Option.none => Option.none
          | _ => Option.none
        else Option.none
    | c :: rest => if c.toNat < 32 then Option.none else jparseStr fuel (c :: acc) rest

/-- JSON integer parser (no floats, leading zeros rejected as in JSON). -/
def jparseNum (cs : List Char) : Option (Int × List Char) :=
  let (neg, cs1) : Bool × List Char :=
    match cs with
    | '-' :: r => (true, r)
    | r => (false, r)
  let (ds, rest) := takeDigits cs1
  if ds.isEmpty then Option.none
  else if ds.length > 1 && ds.headD '0' = '0' then Option.none
  else
    match rest with
    | '.' :: _ => Option.none
    | 'e' :: _ => Option.none
    | 'E' :: _ => Option.none
    | _ =>
      let v : Int := Int.ofNat (digitsToNat ds)
      some (if neg then -v else v, rest)

mutual

/-- JSON value parser, fuel-bounded; models `json.loads` on the grammar
without floats. -/
def jparseVal : Nat → List Char → Option (PyVal × List Char)
  | 0, _ => Option.none
  | fuel + 1, cs =>
    match skipWs cs with
    | 'n' :: 'u' :: 'l' :: 'l' :: rest => some (PyVal.none, rest)
    | 't' :: 'r' :: 'u' :: 'e' :: rest => some (PyVal.bool true, rest)
    | 'f' :: 'a' :: 'l' :: 's' :: 'e' :: rest => some (PyVal.bool false, rest)
    | '"' :: rest =>
      match jparseStr fuel [] rest with
      | some (s, r) => some (PyVal.str s, r)
      | Option.none => Option.none
    | '[' :: rest =>
      match skipWs rest with
      | ']' :: r2 => some (PyVal.list [], r2)
      | cs2 => jparseArrBody fuel [] cs2
    | '\x7b' :: rest =>
      match skipWs rest with
      | '\x7d' :: r2 => some (PyVal.dict [], r2)
      | cs2 => jparseObjBody fuel [] cs2
    | cs' =>
      match jparseNum cs' with
      | some (n, r) => some (PyVal.int n, r)
      | Option.none => Option.none

/-- Items of a JSON array after the first delimiter. -/
def jparseArrBody : Nat → List PyVal → List Char → Option (PyVal × List Char)
  | 0, _, _ => Option.none
  | fuel + 1, acc, cs =>
    match jparseVal fuel cs with
    | Option.none => Option.none
    | some (v, rest) =>
      match skipWs rest with
      | ',' :: rest2 => jparseArrBody fuel (v :: acc) rest2
      | ']' :: rest2 => some (PyVal.list (v :: acc).reverse, rest2)
      | _ => Option.none

/-- Members of a JSON object after the opening brace; a duplicated key
keeps the last value, as `json.loads` does. -/
def jparseObjBody : Nat → List (String × PyVal) → List Char → Option (PyVal × List Char)
  | 0, _, _ => Option.none
  | fuel + 1, acc, cs =>
    match skipWs cs with
    | '"' :: rest =>
      match jparseStr fuel [] rest with
      | Option.none => Option.none
      | some (k, rest1) =>
        match skipWs rest1 with
        | ':' :: rest2 =>
          match jparseVal fuel rest2 with
          | Option.none => Option.none
          | some (v, rest3) =>
            match skipWs rest3 with
            | ',' :: rest4 => jparseObjBody fuel (setKey acc k v) rest4
            | '\x7d' :: rest4 => some (PyVal.dict (setKey acc k v), rest4)
            | _ => Option.none
        | _ => Option.none
    | _ => Option.none

end

/-- Models `json.loads` on a whole document (trailing data rejects, as the
Python decoder raises on extra data).  The fuel exceeds the number of fuel
decrements any parse of the input can perform. -/
def jsonLoads (s : String) : Except Unit PyVal :=
  match jparseVal (4 * s.length + 16) s.toList with
  | some (v, rest) => if (skipWs rest).isEmpty then Except.ok v else Except.error ()
  | Option.none => Except.error ()

/-- The Python exceptions the embedding distinguishes. -/
inductive PyExn where
  | attributeError
deriving DecidableEq, Repr

/-- Presence of a key in a small string-to-string dict. -/
def hasKey (m : List (String × String)) (k : String) : Bool :=
  (List.lookup k m).isSome

/-- State of the line-oriented fallback parser inside
`parse_context_requests`. -/
structure FallbackState where
  requests : List (List (String × String))
  current_request : List (String × String)
  in_context_request : Bool

/-- One iteration of the fallback `for line in lines` loop. -/
def fallbackStep (st : FallbackState) (rawLine : String) : FallbackState :=
  let line := pyStrip rawLine
  if line = "CONTEXT_REQUEST:" then
    let requests :=
      if !st.current_request.isEmpty && hasKey st.current_request "pattern" then
        st.requests ++ [st.current_request]
      else st.requests
    ⟨requests, [], true⟩
  else if st.in_context_request && strStarts line "- pattern:" then
    let v := pyStripChar '"' (pyStrip (pyReplace line "- pattern:" ""))
    { st with current_request := setKey st.current_request "pattern" v }
  else if st.in_context_request && strStarts line "- reason:" then
    let v := pyStripChar '"' (pyStrip (pyReplace line "- reason:" ""))
    { st with current_request := setKey st.current_request "reason" v }
  else if line ≠ "" && !strStarts line "-" && st.in_context_request then
    { st with in_context_request := false }
  else st

/-- The fallback text parser of `parse_context_requests`: scans for the
`CONTEXT_REQUEST:` marker and `- pattern:` / `- reason:` lines, returning
`(requests, "", [])`. -/
def fallbackParse (response : String) : PyVal × PyVal × PyVal :=
  let st := (pySplitChar '\n' response).foldl fallbackStep ⟨[], [], false⟩
  let requests :=
    if !st.current_request.isEmpty && hasKey st.current_request "pattern" then
      st.requests ++ [st.current_request]
    else st.requests
  (PyVal.list (requests.map (fun r => PyVal.dict (r.map (fun p => (p.1, PyVal.str p.2))))),
   PyVal.str "", PyVal.list [])

/-- Models `parse_context_requests` of `src/review.py`.  The result is the
returned triple `(context_requests, review, line_comments)`; `Except.error`
marks an uncaught Python exception (the `except` clause only catches
`json.JSONDecodeError`, so `.get` on a decoded non-dict raises
`AttributeError` past the function). -/
def parse_context_requests (response : String) :
    Except PyExn (PyVal × PyVal × PyVal) :=
  match jsonLoads response with
  | Except.ok (PyVal.dict entries) =>
    let needs_context := dictGet entries "needs_context" (PyVal.bool false)
    let context_requests := dictGet entries "context_requests" (PyVal.list [])
    let review := dictGet entries "review" (PyVal.str "")
    let line_comments := dictGet entries "line_comments" (PyVal.list [])
    if !truthy needs_context then Except.ok (PyVal.list [], review, line_comments)
    else Except.ok (context_requests, PyVal.str "", line_comments)
  | Except.ok _ => Except.error PyExn.attributeError
  | Except.error _ => Except.ok (fallbackParse response)

/-- The fixed denylist `vague_phrases` of `validate_comment_quality`. -/
def vague_phrases : List String := [
  "확인이 필요합니다", "requires checking", "needs verification",
  "검토가 필요합니다", "should be verified", "might need",
  "확인해야 합니다", "should check", "consider checking",
  "명확하지 않음", "unclear", "not clear",
  "검증 필요", "verification needed", "needs review",
  "확인해 주세요", "please check", "please verify",
  "살펴봐야", "should examine", "should investigate"]

/-- The three strict-mode signals of `validate_comment_quality`, in source
order: a code marker, a concrete issue-category word, length above 50. -/
def strict_requirements (comment : String) : List Bool :=
  [["```", "`"].any (fun m => pyIn m comment),
   ["버그", "bug", "오류", "error", "보안", "security", "성능", "performance"].any
     (fun w => pyIn w (pyLower comment)),
   decide ((pyStrip comment).length > 50)]

/-- Models `validate_comment_quality` of `src/review.py`. -/
def validate_comment_quality (comment : String) (pattern : String := "") : Bool :=
  let comment_lower := pyLower comment
  if vague_phrases.any (fun p => pyIn (pyLower p) comment_lower) then false
  else if (pyStrip comment).length < 20 then false
  else if pattern = "STRICT" && (strict_requirements comment).count true < 2 then false
  else if pattern ≠ "" && pattern ≠ "STRICT" && !pyIn (pyLower pattern) comment_lower
      && !(["```", "`", ":", "=", "(", ")"].any (fun m => pyIn m comment)) then false
  else true

/-- A candidate inline comment, as the dicts carried in `line_comments`:
each expected key is optional, since the model may omit it. -/
structure CandidateComment where
  file : Option String
  line : Option Int
  comment : Option String
deriving DecidableEq, Repr

/-- A comment accepted for posting: the dict built with keys `path`,
`line`, `body`, `side`. -/
structure PostedComment where
  path : String
  line : Int
  body : String
  side : String
deriving DecidableEq, Repr

/-- All three expected keys are present on the comment dict. -/
def isCompleteComment (c : CandidateComment) : Bool :=
  c.file.isSome && c.line.isSome && c.comment.isSome

/-- The membership test
`file_path in valid_diff_lines and line_number in valid_diff_lines[file_path]`. -/
def onValidLine (vdl : List (String × Finset Nat)) (f : String) (ln : Int) : Bool :=
  match List.lookup f vdl with
  | some s =>
    match ln with
    | Int.ofNat n => decide (n ∈ s)
    | Int.negSucc _ => false
  | Option.none => false

/-- The classification loop of `post_review_comments`: returns the
`valid_comments` and `invalid_comments` lists in iteration order. -/
def classifyComments (vdl : List (String × Finset Nat)) :
    List CandidateComment → List PostedComment × List CandidateComment
  | [] => ([], [])
  | c :: rest =>
    match c.file, c.line, c.comment with
    | some f, some ln, some tx =>
      if !validate_comment_quality tx then
        let (v, i) := classifyComments vdl rest
        (v, c :: i)
      else if onValidLine vdl f ln then
        let (v, i) := classifyComments vdl rest
        (⟨f, ln, tx, "RIGHT"⟩ :: v, i)
      else
        let (v, i) := classifyComments vdl rest
        (v, c :: i)
    | _, _, _ => classifyComments vdl rest

/-- Models the pure decision core of `post_review_comments` of
`src/review.py`: which comments are batched into the review POST and which
land in the ignored tally.  The HTTP call itself is external I/O. -/
def post_review_comments (line_comments : List CandidateComment) (diff : String) :
    List PostedComment × List CandidateComment :=
  if line_comments.isEmpty then ([], [])
  else
    let valid_diff_lines := if diff ≠ "" then get_valid_diff_lines diff else []
    classifyComments valid_diff_lines line_comments

/-- One context request: the dict with keys `pattern` and `reason`. -/
structure ContextRequest where
  pattern : String
  reason : String
deriving DecidableEq, Repr

/-- A parsed model reply, at the level consumed by the loop of `review_pr`:
the triple produced by `parse_context_requests`, with `needs_context`
already folded into emptiness of `context_requests`. -/
structure Reply where
  context_requests : List ContextRequest
  review : String
  line_comments : List CandidateComment
deriving Repr

/-- Search evidence attached to one context key: either the file-to-excerpt
map of `get_function_definition` or the file-to-matches map of the grep
searches. -/
inductive CtxEntry where
  | defs (m : List (String × String))
  | matches (m : List (String × List String))
deriving DecidableEq, Repr

/-- The four repository searches behind `gather_comprehensive_context`,
modelled as an oracle since they shell out to `find`/`grep`. -/
structure SearchOracle where
  definitions : String → List (String × String)
  usage : String → List (String × List String)
  imports : String → List (String × List String)
  search : String → List (String × List String)

/-- Models `gather_comprehensive_context` of `src/review.py`: for each
request, nonempty results of the definition, usage, import and plain
searches each contribute one key of the result dict. -/
def gather_comprehensive_context (o : SearchOracle) (reqs : List ContextRequest) :
    List (String × CtxEntry) :=
  reqs.foldl
    (fun acc req =>
      let pattern := req.pattern
      let acc :=
        if (o.definitions pattern).isEmpty then acc
        else setKey acc (pattern ++ "_definitions") (CtxEntry.defs (o.definitions pattern))
      let acc :=
        if (o.usage pattern).isEmpty then acc
        else setKey acc (pattern ++ "_usage") (CtxEntry.matches (o.usage pattern))
      let acc :=
        if (o.imports pattern).isEmpty then acc
        else setKey acc (pattern ++ "_imports") (CtxEntry.matches (o.imports pattern))
      let acc :=
        if (o.search pattern).isEmpty then acc
        else setKey acc pattern (CtxEntry.matches (o.search pattern))
      acc)
    []

/-- Python `all_context.update(current_context)`. -/
def dictUpdate (m m' : List (String × CtxEntry)) : List (String × CtxEntry) :=
  m'.foldl (fun acc p => setKey acc p.1 p.2) m

/-- Outcome of the `while iteration < max_recursion` loop of `review_pr`:
the final `iteration` count, the accumulated `all_context` and
`final_line_comments`, and `some review` when the loop exited through the
no-more-context `break` (carrying that round's `review_content`). -/
structure WhileOut where
  iteration : Nat
  all_context : List (String × CtxEntry)
  comments : List CandidateComment
  early_review : Option String
deriving Repr

/-- The while loop of `review_pr`, structurally recursive on the remaining
budget `max_recursion - iteration`.  `replies i` abstracts
`parse_context_requests(call_openai(...))` for round `i`, the model call
being external I/O. -/
def runWhile (replies : Nat → Reply) (o : SearchOracle) :
    Nat → Nat → List (String × CtxEntry) → List CandidateComment → WhileOut
  | 0, it, ctx, cms => ⟨it, ctx, cms, Option.none⟩
  | fuel + 1, it, ctx, cms =>
    let r := replies it
    let cms := if r.line_comments.isEmpty then cms else cms ++ r.line_comments
    if r.context_requests.isEmpty then ⟨it, ctx, cms, some r.review⟩
    else
      let cur := gather_comprehensive_context o r.context_requests
      runWhile replies o fuel (it + 1) (dictUpdate ctx cur) cms

/-- Result of the decision core of `review_pr`. -/
structure LoopResult where
  gatherRounds : Nat
  forcedFinal : Bool
  strictApplied : Bool
  all_context : List (String × CtxEntry)
  final_line_comments : List CandidateComment
deriving Repr

/-- Models the loop of `review_pr` of `src/review.py`.  `earlyExtracted`
and `forcedExtracted` abstract
`extract_line_comments_from_text(call_openai(...))` at the two final-round
call sites (the model reply being external I/O).  `gatherRounds` counts the
calls to `gather_comprehensive_context`; `forcedFinal` records whether the
budget-exhaustion branch `iteration >= max_recursion` ran; `strictApplied`
records its `strict_filtering` flag. -/
def review_pr_loop (max_recursion : Nat) (replies : Nat → Reply) (o : SearchOracle)
    (earlyExtracted forcedExtracted : List CandidateComment) : LoopResult :=
  let w := runWhile replies o max_recursion 0 [] []
  match w.early_review with
  | some review =>
    if review ≠ "" then ⟨w.iteration, false, false, w.all_context, w.comments⟩
    else
      let filtered :=
        earlyExtracted.filter (fun c => validate_comment_quality (c.comment.getD ""))
      ⟨w.iteration, false, false, w.all_context, w.comments ++ filtered⟩
  | Option.none =>
    let strict := w.all_context.isEmpty || w.all_context.length < 2
    let filtered :=
      forcedExtracted.filter (fun c =>
        validate_comment_quality (c.comment.getD "") (if strict then "STRICT" else ""))
    ⟨w.iteration, true, strict, w.all_context, w.comments ++ filtered⟩

/-- C4 (code bug): `parse_context_requests` was specified never to raise on
a malformed reply, but its `except` clause only catches
`json.JSONDecodeError`; a reply that is valid JSON yet not an object, such
as the JSON array `[]`, reaches `.get` on a non-dict and raises
`AttributeError` past the function. -/
theorem c4_nondict_reply_raises :
    parse_context_requests "[]" = Except.error PyExn.attributeError := by
  rfl

/-- C6: any comment containing a denylisted hedging phrase as a
case-insensitive substring is rejected by `validate_comment_quality`,
whatever the pattern/mode argument and the rest of the content. -/
theorem c6_hedge_always_rejected (comment pattern : String)
    (h : ∃ p ∈ vague_phrases, pyIn (pyLower p) (pyLower comment) = true) :
    validate_comment_quality comment pattern = false := by
  have hany : vague_phrases.any (fun p => pyIn (pyLower p) (pyLower comment)) = true :=
    List.any_eq_true.mpr h
  unfold validate_comment_quality
  simp [hany]

/-- Concrete instance for C6: the hedging comment from the specification is
rejected even in Strict mode. -/
theorem c6_witness :
    validate_comment_quality "This needs verification before merging." "STRICT" = false :=
  c6_hedge_always_rejected _ _ ⟨"needs verification", by decide, by decide⟩

/-- C7: in Strict mode, a comment past the hedge and minimum-length rules
is accepted iff at least 2 of the 3 strict signals hold. -/
theorem c7_strict_two_of_three (comment : String)
    (hno : ∀ p ∈ vague_phrases, pyIn (pyLower p) (pyLower comment) = false)
    (hlen : 20 ≤ (pyStrip comment).length) :
    (validate_comment_quality comment "STRICT" = true ↔
      2 ≤ (strict_requirements comment).count true) := by
  have hany : vague_phrases.any (fun p => pyIn (pyLower p) (pyLower comment)) = false := by
    rw [List.any_eq_false]
    intro p hp
    simp [hno p hp]
  unfold validate_comment_quality
  simp [hany, Nat.not_lt.mpr hlen]

/-- Concrete instance for C7: the concrete comment of the specification
(code marker, issue keyword, length above 50) is accepted in Strict mode. -/
theorem c7_witness :
    validate_comment_quality
      "`foo()` has a null-pointer bug when `items` is empty; guard with `if not items: return`."
      "STRICT" = true :=
  (c7_strict_two_of_three _ (by decide) (by decide)).mpr (by decide)

/-- C10: whenever the structured reply decodes to a dict whose
`needs_context` entry is truthy, `parse_context_requests` returns the empty
string as the review component, discarding the review text of the reply. -/
theorem c10_review_discarded (s : String) (entries : List (String × PyVal))
    (hdec : jsonLoads s = Except.ok (PyVal.dict entries))
    (hneeds : truthy (dictGet entries "needs_context" (PyVal.bool false)) = true) :
    ∃ a c, parse_context_requests s = Except.ok (a, PyVal.str "", c) := by
  unfold parse_context_requests
  rw [hdec]
  simp [hneeds]

/-- Concrete instance for C10: a reply carrying both `needs_context: true`
and a nonempty review comes back with the review dropped. -/
theorem c10_witness :
    ∃ a c,
      parse_context_requests "\x7b\"needs_context\": true, \"review\": \"hello\"\x7d" =
        Except.ok (a, PyVal.str "", c) :=
  c10_review_discarded _
    [("needs_context", PyVal.bool true), ("review", PyVal.str "hello")]
    (by rfl) (by rfl)

/-- Dropping the incomplete comment dicts before classification changes
nothing: the classification loop itself skips them. -/
theorem classifyComments_filter (vdl : List (String × Finset Nat))
    (lcs : List CandidateComment) :
    classifyComments vdl (lcs.filter isCompleteComment) = classifyComments vdl lcs := by
  induction lcs with
  | nil => rfl
  | cons c rest ih =>
    obtain ⟨f, ln, tx⟩ := c
    rcases f with _ | f <;> rcases ln with _ | ln <;> rcases tx with _ | tx <;>
      simp [isCompleteComment, List.filter_cons, classifyComments, ih]

/-- Every comment in the ignored tally carries all three keys. -/
theorem classifyComments_invalid_complete (vdl : List (String × Finset Nat))
    (lcs : List CandidateComment) :
    (classifyComments vdl lcs).2.all isCompleteComment = true := by
  induction lcs with
  | nil => rfl
  | cons c rest ih =>
    obtain ⟨f, ln, tx⟩ := c
    rcases f with _ | f <;> rcases ln with _ | ln <;> rcases tx with _ | tx <;>
      simp only [classifyComments] <;>
      try exact ih
    split
    · simpa [isCompleteComment] using ih
    · split
      · simpa using ih
      · simpa [isCompleteComment] using ih

/-- The decision core of `post_review_comments` factors through the
complete comments alone. -/
theorem post_review_comments_eq (lcs : List CandidateComment) (diff : String) :
    post_review_comments lcs diff =
      classifyComments (if diff ≠ "" then get_valid_diff_lines diff else [])
        (lcs.filter isCompleteComment) := by
  rw [classifyComments_filter]
  unfold post_review_comments
  rcases lcs with _ | ⟨c, rest⟩
  · rfl
  · rfl

/-- C9: a candidate comment dict lacking `file`, `line` or `comment` is
invisible to `post_review_comments`: the outcome equals the outcome on the
complete comments alone, and the ignored tally holds only complete
comments, so an incomplete dict is never posted, never validated, and never
counted. -/
theorem c9_incomplete_comments_skipped (lcs : List CandidateComment) (diff : String) :
    post_review_comments lcs diff = post_review_comments (lcs.filter isCompleteComment) diff
    ∧ (post_review_comments lcs diff).2.all isCompleteComment = true := by
  constructor
  · rw [post_review_comments_eq, post_review_comments_eq]
    exact (classifyComments_filter _ _).symm
  · rw [post_review_comments_eq]
    exact classifyComments_invalid_complete _ _

/-- Bound and exactness for the while loop: the iteration counter never
exceeds the budget, and when every reply keeps requesting context the loop
consumes the whole budget without ever reaching the `break`. -/
theorem runWhile_exhausts (replies : Nat → Reply) (o : SearchOracle) :
    ∀ (fuel it : Nat) (ctx : List (String × CtxEntry)) (cms : List CandidateComment),
      (runWhile replies o fuel it ctx cms).iteration ≤ it + fuel ∧
      ((∀ i, (replies i).context_requests ≠ []) →
        (runWhile replies o fuel it ctx cms).iteration = it + fuel ∧
        (runWhile replies o fuel it ctx cms).early_review = Option.none) := by
  intro fuel
  induction fuel with
  | zero =>
    intro it ctx cms
    simp [runWhile]
  | succ n ih =>
    intro it ctx cms
    by_cases h : (replies it).context_requests.isEmpty = true
    · simp only [runWhile, h, if_true]
      constructor
      · simp
      · intro hall
        exact absurd (List.isEmpty_iff.mp h) (hall it)
    · simp only [runWhile, h, Bool.false_eq_true, if_false]
      obtain ⟨h1, h2⟩ :=
        ih (it + 1) (dictUpdate ctx (gather_comprehensive_context o (replies it).context_requests))
          (if (replies it).line_comments.isEmpty then cms else cms ++ (replies it).line_comments)
      constructor
      · calc _ ≤ it + 1 + n := h1
          _ = it + (n + 1) := by omega
      · intro hall
        obtain ⟨h3, h4⟩ := h2 hall
        exact ⟨by rw [h3]; omega, h4⟩

/-- The loop result exposes the while-loop iteration count as
`gatherRounds`, and runs the forced final round exactly when the while loop
ended by budget. -/
theorem review_pr_loop_shape (mr : Nat) (replies : Nat → Reply) (o : SearchOracle)
    (ee fe : List CandidateComment) :
    (review_pr_loop mr replies o ee fe).gatherRounds =
      (runWhile replies o mr 0 [] []).iteration ∧
    ((review_pr_loop mr replies o ee fe).forcedFinal = true ↔
      (runWhile replies o mr 0 [] []).early_review = Option.none) ∧
    (review_pr_loop mr replies o ee fe).all_context =
      (runWhile replies o mr 0 [] []).all_context := by
  simp only [review_pr_loop]
  rcases h : (runWhile replies o mr 0 [] []).early_review with _ | rev
  · simp [h]
  · simp only [h]
    split <;> simp

/-- C3: the loop performs at most `max_recursion` context-gathering rounds;
when the model requests context on every round (never clearing
`needs_context`), it performs exactly `max_recursion` of them followed by
exactly one forced final round — in particular no further context-gathering
round is issued. -/
theorem c3_iteration_budget (mr : Nat) (replies : Nat → Reply) (o : SearchOracle)
    (ee fe : List CandidateComment) :
    (review_pr_loop mr replies o ee fe).gatherRounds ≤ mr ∧
    ((∀ i, (replies i).context_requests ≠ []) →
      (review_pr_loop mr replies o ee fe).gatherRounds = mr ∧
      (review_pr_loop mr replies o ee fe).forcedFinal = true) := by
  obtain ⟨hle, hex⟩ := runWhile_exhausts replies o mr 0 [] []
  obtain ⟨hg, hf, _⟩ := review_pr_loop_shape mr replies o ee fe
  constructor
  · rw [hg]
    simpa using hle
  · intro hall
    obtain ⟨h1, h2⟩ := hex hall
    refine ⟨?_, hf.mpr h2⟩
    rw [hg, h1]
    omega

/-- A model that asks for more context on every round. -/
def alwaysAskReplies : Nat → Reply := fun _ => ⟨[⟨"p", "r"⟩], "", []⟩

/-- A repository in which every search comes back empty. -/
def noResultOracle : SearchOracle := ⟨fun _ => [], fun _ => [], fun _ => [], fun _ => []⟩

/-- Concrete instance for C3: with budget 3 and a model that requests
context on rounds 1, 2 and 3, exactly 3 gathering rounds run and the forced
final round is taken. -/
theorem c3_witness :
    (review_pr_loop 3 alwaysAskReplies noResultOracle [] []).gatherRounds = 3 ∧
    (review_pr_loop 3 alwaysAskReplies noResultOracle [] []).forcedFinal = true :=
  (c3_iteration_budget 3 alwaysAskReplies noResultOracle [] []).2
    (fun _ => by simp [alwaysAskReplies])

/-- C5 (amended): in the forced final round, Strict mode is selected iff
the accumulated context dict has fewer than 2 keys — keys, not requested
patterns: each pattern contributes up to four keys. -/
theorem c5_strict_iff_context_keys (mr : Nat) (replies : Nat → Reply) (o : SearchOracle)
    (ee fe : List CandidateComment)
    (hforced : (review_pr_loop mr replies o ee fe).forcedFinal = true) :
    ((review_pr_loop mr replies o ee fe).strictApplied = true ↔
      (review_pr_loop mr replies o ee fe).all_context.length < 2) := by
  simp only [review_pr_loop] at hforced ⊢
  rcases h : (runWhile replies o mr 0 [] []).early_review with _ | rev
  · simp only [h]
    constructor
    · intro hs
      simp only [Bool.or_eq_true, List.isEmpty_iff, decide_eq_true_eq] at hs
      rcases hs with he | hlt
      · simp [he]
      · exact hlt
    · intro hlt
      simp only [Bool.or_eq_true, decide_eq_true_eq]
      exact Or.inr hlt
  · simp only [h] at hforced
    split at hforced <;> simp at hforced

/-- A model that keeps requesting the single pattern `foo`. -/
def fooReplies : Nat → Reply := fun _ => ⟨[⟨"foo", "why"⟩], "", []⟩

/-- A repository in which `foo` has both a definition and a usage, so one
pattern yields two context keys. -/
def fooOracle : SearchOracle :=
  ⟨fun p => if p = "foo" then [("a.py", "def foo")] else [],
   fun p => if p = "foo" then [("a.py", ["1:foo()"])] else [],
   fun _ => [], fun _ => []⟩

/-- Counterexample to C5 as stated: a forced final round whose session
requested exactly one pattern (fewer than 2), yet Normal — not Strict —
validation is selected, because the single pattern contributed two context
keys and the code counts keys. -/
theorem c5_counterexample :
    (fooReplies 0).context_requests.map ContextRequest.pattern = ["foo"] ∧
    (review_pr_loop 1 fooReplies fooOracle [] []).forcedFinal = true ∧
    (review_pr_loop 1 fooReplies fooOracle [] []).all_context.map Prod.fst =
      ["foo_definitions", "foo_usage"] ∧
    (review_pr_loop 1 fooReplies fooOracle [] []).strictApplied = false :=
  ⟨by decide, by decide, by decide, by decide⟩

/-- Concrete instance for C5 (amended): a forced final round that gathered
no context keys selects Strict mode. -/
theorem c5_witness :
    (review_pr_loop 3 alwaysAskReplies noResultOracle [] []).strictApplied = true :=
  (c5_strict_iff_context_keys 3 alwaysAskReplies noResultOracle [] [] (by decide)).mpr
    (by decide)

/-- A pair taken from a dict after an assignment either was already present
or is the assigned binding. -/
theorem mem_setKey {α : Type} {k : String} {v : α} {p : String × α} :
    ∀ {m : List (String × α)}, p ∈ setKey m k v → p ∈ m ∨ p = (k, v) := by
  intro m
  induction m with
  | nil =>
    intro hp
    simp only [setKey, List.mem_singleton] at hp
    exact Or.inr hp
  | cons q rest ih =>
    obtain ⟨k', v'⟩ := q
    intro hp
    simp only [setKey] at hp
    by_cases hk : k' = k
    · rw [if_pos hk] at hp
      rcases List.mem_cons.mp hp with h | h
      · exact Or.inr h
      · exact Or.inl (List.mem_cons_of_mem _ h)
    · rw [if_neg hk] at hp
      rcases List.mem_cons.mp hp with h | h
      · exact Or.inl (h ▸ List.mem_cons_self _ _)
      · rcases ih h with h' | h'
        · exact Or.inl (List.mem_cons_of_mem _ h')
        · exact Or.inr h'

/-- A parser step on a line that is not a hunk header opens no hunk and
keeps every per-file hunk list empty. -/
theorem parseStep_no_header (st : ParseState) (line : String)
    (hl : strStarts line "@@" = false)
    (h1 : st.current_hunk = Option.none)
    (h2 : ∀ p ∈ st.file_changes, p.2 = []) :
    (parseStep st line).current_hunk = Option.none ∧
      ∀ p ∈ (parseStep st line).file_changes, p.2 = [] := by
  unfold parseStep
  by_cases hd : strStarts line "diff --git" = true
  · rw [if_pos hd]
    rcases hsg : searchDiffGit line with _ | ⟨g1, g2⟩
    · exact ⟨h1, h2⟩
    · refine ⟨h1, fun p hp => ?_⟩
      simp only at hp
      rcases mem_setKey hp with hin | heq
      · exact h2 p hin
      · rw [heq]
  · rw [if_neg hd, if_neg (by simp [hl])]
    rw [h1]
    exact ⟨h1, h2⟩

/-- The diff of the C8 counterexample: a well-formed hunk for file `f`
followed by a malformed hunk-header line and one more added line. -/
def c8diff : String := "diff --git a/f b/f\n@@ -1,1 +1,1 @@\n+x\n@@ oops\n+y"

/-- Counterexample to C8 as stated: after the malformed header `@@ oops`,
the body line `+y` is not dropped — it is appended to the most recently
opened hunk (here even receiving line number 2 computed against that
hunk), so it does appear in a hunk of the result. -/
theorem c8_counterexample :
    parse_diff_with_line_numbers c8diff =
      [("f", [⟨1, 1, [⟨"+", "x", some 1⟩, ⟨"+", "y", some 2⟩]⟩])] := by
  decide

/-- C8 (amended): body lines never crash the parser; when no hunk-header
line occurs in the diff at all, no hunk is ever opened and every file of
the result carries an empty hunk list — the body lines are silently
dropped.  (After a malformed header that follows a successfully opened
hunk, lines are instead appended to that hunk, as the counterexample
shows.) -/
theorem c8_missing_header_drops (diff : String)
    (h : ∀ line ∈ pySplitChar '\n' diff, strStarts line "@@" = false) :
    (parse_diff_with_line_numbers diff).all (fun p => p.2.isEmpty) = true := by
  unfold parse_diff_with_line_numbers
  have key : ∀ (lines : List String) (st : ParseState),
      (∀ line ∈ lines, strStarts line "@@" = false) →
      st.current_hunk = Option.none → (∀ p ∈ st.file_changes, p.2 = []) →
      ((lines.foldl parseStep st).current_hunk = Option.none ∧
        ∀ p ∈ (lines.foldl parseStep st).file_changes, p.2 = []) := by
    intro lines
    induction lines with
    | nil =>
      intro st _ h1 h2
      exact ⟨h1, h2⟩
    | cons l ls ih =>
      intro st hls h1 h2
      obtain ⟨h1', h2'⟩ := parseStep_no_header st l (hls l (by simp)) h1 h2
      exact ih _ (fun x hx => hls x (by simp [hx])) h1' h2'
  obtain ⟨_, h2⟩ := key _ initParseState h rfl (by simp [initParseState])
  rw [List.all_eq_true]
  intro p hp
  rcases List.mem_map.mp hp with ⟨⟨f, idxs⟩, hq, hpe⟩
  have hidx : idxs = [] := h2 _ hq
  rw [← hpe]
  simp [hidx]

/-- A diff with body lines but no hunk-header line at all. -/
def c8noHeaderDiff : String := "diff --git a/f b/f\n+x\n-y"

/-- Concrete instance for C8 (amended): with no hunk header, the added and
removed body lines are dropped and file `f` ends with no hunks. -/
theorem c8_witness :
    (parse_diff_with_line_numbers c8noHeaderDiff).all (fun p => p.2.isEmpty) = true :=
  c8_missing_header_drops c8noHeaderDiff (by decide)

/-- Recursive numbering contract for the tail of a hunk, `k` being the
number of Added/Context lines already seen before this tail. -/
def linesOK (ns : Nat) : Nat → List DiffLine → Prop
  | _, [] => True
  | k, l :: rest =>
    ((isAC l = true → l.line_number = some (ns + k)) ∧
      (l.type = "-" → l.line_number = Option.none)) ∧
    linesOK ns (k + (if isAC l then 1 else 0)) rest

/-- The indexed reading of `linesOK`: position `i` carries the start plus
the count of Added/Context lines strictly before it. -/
theorem linesOK_getElem (ns : Nat) :
    ∀ (ls : List DiffLine) (k : Nat), linesOK ns k ls →
      ∀ i (hi : i < ls.length),
        (isAC (ls[i]) = true →
          (ls[i]).line_number = some (ns + k + (ls.take i).countP isAC)) ∧
        ((ls[i]).type = "-" → (ls[i]).line_number = Option.none) := by
  intro ls
  induction ls with
  | nil =>
    intro k _ i hi
    simp at hi
  | cons l rest ih =>
    intro k h i hi
    obtain ⟨hhead, htail⟩ := h
    cases i with
    | zero =>
      simpa using hhead
    | succ j =>
      have hj : j < rest.length := by simpa using hi
      have hrec := ih (k + if isAC l then 1 else 0) htail j hj
      simp only [List.getElem_cons_succ, List.take_succ_cons, List.countP_cons]
      refine ⟨fun hac => ?_, hrec.2⟩
      rw [hrec.1 hac]
      congr 1
      omega

/-- The indexed per-hunk numbering contract, matching the specification
wording. -/
def HunkOK (h : Hunk) : Prop :=
  ∀ i (hi : i < h.lines.length),
    (isAC (h.lines[i]) = true →
      (h.lines[i]).line_number = some (h.new_start + (h.lines.take i).countP isAC)) ∧
    ((h.lines[i]).type = "-" → (h.lines[i]).line_number = Option.none)

theorem linesOK_hunkOK {h : Hunk} (hl : linesOK h.new_start 0 h.lines) : HunkOK h := by
  intro i hi
  have := linesOK_getElem h.new_start h.lines 0 hl i hi
  simpa using this

/-- Appending one line with the correct data preserves the numbering
contract. -/
theorem linesOK_append (ns : Nat) :
    ∀ (ls : List DiffLine) (k : Nat) (l : DiffLine), linesOK ns k ls →
      ((isAC l = true ∧ l.line_number = some (ns + k + ls.countP isAC)) ∨
        (isAC l = false ∧ l.type = "-" ∧ l.line_number = Option.none)) →
      linesOK ns k (ls ++ [l]) := by
  intro ls
  induction ls with
  | nil =>
    intro k l _ hl
    refine ⟨?_, trivial⟩
    rcases hl with ⟨hac, hnum⟩ | ⟨hac, ht, hnum⟩
    · refine ⟨fun _ => ?_, fun ht => ?_⟩
      · simpa using hnum
      · exfalso
        simp [isAC, ht] at hac
    · exact ⟨fun hac' => absurd hac' (by simp [hac]), fun _ => hnum⟩
  | cons x rest ih =>
    intro k l h hl
    obtain ⟨hx, hrest⟩ := h
    refine ⟨hx, ih _ _ hrest ?_⟩
    rcases hl with ⟨hac, hnum⟩ | hr
    · left
      refine ⟨hac, ?_⟩
      rw [hnum]
      congr 1
      simp only [List.countP_cons]
      omega
    · right
      exact hr

/-- Invariant of the parser state: every hunk in the store satisfies the
numbering contract. -/
def StoreOK (st : ParseState) : Prop :=
  ∀ h ∈ st.store, linesOK h.new_start 0 h.lines

theorem storeOK_getD {st : ParseState} (hst : StoreOK st) (i : Nat) :
    linesOK (st.store.getD i dfltHunk).new_start 0 (st.store.getD i dfltHunk).lines := by
  rcases hq : st.store[i]? with _ | h
  · have he : st.store.getD i dfltHunk = dfltHunk := by
      simp [List.getD, hq]
    rw [he]
    exact trivial
  · have he : st.store.getD i dfltHunk = h := by
      simp [List.getD, hq]
    rw [he]
    exact hst h (List.getElem?_mem hq)

/-- Overwriting one slot of the store with a contract-satisfying hunk
preserves the invariant. -/
theorem storeOK_set {st : ParseState} (hst : StoreOK st) (i : Nat) (h' : Hunk)
    (hOK : linesOK h'.new_start 0 h'.lines) :
    StoreOK { st with store := st.store.set i h' } := by
  intro g hg
  rcases List.mem_or_eq_of_mem_set hg with hin | heq
  · exact hst g hin
  · rw [heq]
    exact hOK

theorem bodyStep_storeOK {st : ParseState} (hst : StoreOK st) (i : Nat) (line : String) :
    StoreOK (bodyStep st i line) := by
  have hOK := storeOK_getD hst i
  simp only [bodyStep]
  by_cases h1 : (strStarts line "+" && !strStarts line "+++") = true
  · rw [if_pos h1]
    apply storeOK_set hst
    apply linesOK_append _ _ _ _ hOK
    left
    exact ⟨rfl, rfl⟩
  · rw [if_neg h1]
    by_cases h2 : (strStarts line "-" && !strStarts line "---") = true
    · rw [if_pos h2]
      apply storeOK_set hst
      apply linesOK_append _ _ _ _ hOK
      right
      exact ⟨rfl, rfl, rfl⟩
    · rw [if_neg h2]
      by_cases h3 : strStarts line " " = true
      · rw [if_pos h3]
        apply storeOK_set hst
        apply linesOK_append _ _ _ _ hOK
        left
        exact ⟨rfl, rfl⟩
      · rw [if_neg h3]
        exact hst

/-- Opening a fresh (empty) hunk preserves the store invariant. -/
theorem openHunk_storeOK {st : ParseState} (hst : StoreOK st) (o n : Nat) (f : String) :
    StoreOK (openHunk st o n f) := by
  intro g hg
  rcases List.mem_append.mp hg with hin | hnew
  · exact hst g hin
  · rw [List.mem_singleton.mp hnew]
    exact trivial

theorem parseStep_storeOK {st : ParseState} (hst : StoreOK st) (line : String) :
    StoreOK (parseStep st line) := by
  unfold parseStep
  by_cases hd : strStarts line "diff --git" = true
  · rw [if_pos hd]
    rcases searchDiffGit line with _ | ⟨g1, g2⟩
    · exact hst
    · exact hst
  · rw [if_neg hd]
    by_cases ha : strStarts line "@@" = true
    · rw [if_pos ha]
      rcases searchHunkHeader line.toList with _ | ⟨o, n⟩
      · exact hst
      · rcases hcf : st.current_file with _ | f
        · exact hst
        · show StoreOK (if truthyFile (some f) = true then openHunk st o n f else st)
          by_cases ht : truthyFile (some f) = true
          · rw [if_pos ht]
            exact openHunk_storeOK hst o n f
          · rw [if_neg ht]
            exact hst
    · rw [if_neg ha]
      rcases st.current_hunk with _ | i
      · exact hst
      · show StoreOK (if truthyFile st.current_file = true then bodyStep st i line else st)
        by_cases ht : truthyFile st.current_file = true
        · rw [if_pos ht]
          exact bodyStep_storeOK hst i line
        · rw [if_neg ht]
          exact hst

theorem foldl_storeOK (lines : List String) :
    ∀ (st : ParseState), StoreOK st → StoreOK (lines.foldl parseStep st) := by
  induction lines with
  | nil =>
    intro st h
    exact h
  | cons l ls ih =>
    intro st h
    exact ih _ (parseStep_storeOK h l)

/-- C2: in every hunk of every parse result, each Added or Context line at
position `i` carries `new_start` plus the number of Added and Context lines
before it in the hunk, and every Removed line carries `None` — Removed
lines never advance the counter. -/
theorem c2_line_numbering (diff f : String) (hs : List Hunk)
    (hmem : (f, hs) ∈ parse_diff_with_line_numbers diff) :
    ∀ h ∈ hs, HunkOK h := by
  intro h hh
  simp only [parse_diff_with_line_numbers] at hmem
  rcases List.mem_map.mp hmem with ⟨⟨f', idxs⟩, hq, hpe⟩
  have hstOK : StoreOK ((pySplitChar '\n' diff).foldl parseStep initParseState) := by
    apply foldl_storeOK
    intro g hg
    simp [initParseState] at hg
  have hhs : hs = idxs.map
      (fun i => ((pySplitChar '\n' diff).foldl parseStep initParseState).store.getD i dfltHunk) := by
    have := congrArg Prod.snd hpe
    simpa using this.symm
  rw [hhs] at hh
  rcases List.mem_map.mp hh with ⟨i, hi, hgi⟩
  rw [← hgi]
  exact linesOK_hunkOK (storeOK_getD hstOK i)

/-- The worked diff of the specification: one hunk starting at new line 10
with lines context, add, add, remove, context. -/
def exampleDiff : String :=
  "diff --git a/a.py b/a.py\n@@ -8,3 +10,4 @@\n ctx\n+a1\n+a2\n-rm\n ctx2"

/-- The hunk that `parse_diff_with_line_numbers` produces for
`exampleDiff`. -/
def exampleHunk : Hunk :=
  ⟨8, 10, [⟨" ", "ctx", some 10⟩, ⟨"+", "a1", some 11⟩, ⟨"+", "a2", some 12⟩,
    ⟨"-", "rm", Option.none⟩, ⟨" ", "ctx2", some 13⟩]⟩

/-- Concrete instance for C2: the parsed example hunk carries exactly the
numbers 10, 11, 12, None, 13 and satisfies the numbering contract. -/
theorem c2_witness :
    exampleHunk.lines.map DiffLine.line_number =
      [some 10, some 11, some 12, Option.none, some 13] ∧ HunkOK exampleHunk :=
  ⟨by decide,
   c2_line_numbering exampleDiff "a.py" [exampleHunk] (by decide) exampleHunk (by decide)⟩

/-- Membership in the per-hunk accumulation of `get_valid_diff_lines`: a
number gets in exactly from the initial set or from an Added line carrying
it. -/
theorem mem_foldl_addValidLine (n : Nat) :
    ∀ (ls : List DiffLine) (s : Finset Nat),
      (n ∈ ls.foldl addValidLine s ↔
        n ∈ s ∨ ∃ l ∈ ls, l.type = "+" ∧ l.line_number = some n) := by
  intro ls
  induction ls with
  | nil =>
    intro s
    simp
  | cons l rest ih =>
    intro s
    rw [List.foldl_cons, ih]
    have hsplit : ∀ x ∈ rest, x.type = "+" → x.line_number = some n →
        (∃ y ∈ l :: rest, y.type = "+" ∧ y.line_number = some n) :=
      fun x hx h1 h2 => ⟨x, List.mem_cons_of_mem _ hx, h1, h2⟩
    rcases hln : l.line_number with _ | m
    · have ha : addValidLine s l = s := by simp [addValidLine, hln]
      rw [ha]
      constructor
      · rintro (hs | ⟨x, hx, h1, h2⟩)
        · exact Or.inl hs
        · exact Or.inr (hsplit x hx h1 h2)
      · rintro (hs | ⟨x, hx, h1, h2⟩)
        · exact Or.inl hs
        · rcases List.mem_cons.mp hx with rfl | hx'
          · rw [hln] at h2
            exact absurd h2 (by simp)
          · exact Or.inr ⟨x, hx', h1, h2⟩
    · by_cases ht : l.type = "+"
      · have ha : addValidLine s l = insert m s := by simp [addValidLine, hln, ht]
        rw [ha]
        constructor
        · rintro (hs | ⟨x, hx, h1, h2⟩)
          · rcases Finset.mem_insert.mp hs with rfl | hs'
            · exact Or.inr ⟨l, List.mem_cons_self _ _, ht, hln⟩
            · exact Or.inl hs'
          · exact Or.inr (hsplit x hx h1 h2)
        · rintro (hs | ⟨x, hx, h1, h2⟩)
          · exact Or.inl (Finset.mem_insert.mpr (Or.inr hs))
          · rcases List.mem_cons.mp hx with rfl | hx'
            · rw [hln] at h2
              exact Or.inl (Finset.mem_insert.mpr (Or.inl (Option.some.inj h2).symm))
            · exact Or.inr ⟨x, hx', h1, h2⟩
      · have ha : addValidLine s l = s := by simp [addValidLine, hln, ht]
        rw [ha]
        constructor
        · rintro (hs | ⟨x, hx, h1, h2⟩)
          · exact Or.inl hs
          · exact Or.inr (hsplit x hx h1 h2)
        · rintro (hs | ⟨x, hx, h1, h2⟩)
          · exact Or.inl hs
          · rcases List.mem_cons.mp hx with rfl | hx'
            · exact absurd h1 ht
            · exact Or.inr ⟨x, hx', h1, h2⟩

/-- Membership after folding over all hunks of a file. -/
theorem mem_foldl_hunks (n : Nat) :
    ∀ (hs : List Hunk) (s : Finset Nat),
      (n ∈ hs.foldl (fun s h => h.lines.foldl addValidLine s) s ↔
        n ∈ s ∨ ∃ h ∈ hs, ∃ l ∈ h.lines, l.type = "+" ∧ l.line_number = some n) := by
  intro hs
  induction hs with
  | nil =>
    intro s
    simp
  | cons h rest ih =>
    intro s
    rw [List.foldl_cons, ih, mem_foldl_addValidLine]
    constructor
    · rintro ((hs | hx) | hy)
      · exact Or.inl hs
      · exact Or.inr ⟨h, by simp, hx⟩
      · obtain ⟨g, hg, hl⟩ := hy
        exact Or.inr ⟨g, by simp [hg], hl⟩
    · rintro (hs | ⟨g, hg, hl⟩)
      · exact Or.inl (Or.inl hs)
      · rcases List.mem_cons.mp hg with rfl | hg
        · exact Or.inl (Or.inr hl)
        · exact Or.inr ⟨g, hg, hl⟩

/-- C1: the anchor map has one entry per parsed file, and every binding
pairs a file of the parse result with exactly the set of `new_line_number`
values of its Added lines: a number is in the set iff some Added line of
that file carries it, so no Removed or Context line ever contributes. -/
theorem c1_anchor_map (diff : String) :
    (∀ f s, (f, s) ∈ get_valid_diff_lines diff →
      ∃ hs, (f, hs) ∈ parse_diff_with_line_numbers diff ∧
        ∀ n, n ∈ s ↔ ∃ h ∈ hs, ∃ l ∈ h.lines, l.type = "+" ∧ l.line_number = some n) ∧
    (∀ f hs, (f, hs) ∈ parse_diff_with_line_numbers diff →
      ∃ s, (f, s) ∈ get_valid_diff_lines diff) := by
  constructor
  · intro f s hmem
    unfold get_valid_diff_lines at hmem
    rcases List.mem_map.mp hmem with ⟨⟨f', hs⟩, hq, hpe⟩
    have hf : f' = f := congrArg Prod.fst hpe
    have hsval : s = hs.foldl (fun s h => h.lines.foldl addValidLine s) ∅ :=
      (congrArg Prod.snd hpe).symm
    refine ⟨hs, hf ▸ hq, fun n => ?_⟩
    rw [hsval, mem_foldl_hunks]
    simp
  · intro f hs hq
    exact ⟨_, List.mem_map.mpr ⟨(f, hs), hq, rfl⟩⟩

/-- Concrete instance for C1: in the worked example, the anchor set of
`a.py` is exactly the numbers of its two added lines. -/
theorem c1_witness :
    ∃ hs, ("a.py", hs) ∈ parse_diff_with_line_numbers exampleDiff ∧
      ∀ n, n ∈ ({11, 12} : Finset Nat) ↔
        ∃ h ∈ hs, ∃ l ∈ h.lines, l.type = "+" ∧ l.line_number = some n :=
  (c1_anchor_map exampleDiff).1 "a.py" {11, 12} (by decide)
